import Mathlib

/-
Shallow embedding of the PowerWalk repository.

Sources embedded:
- src/unnamed/part_000 : graphlab's vertex_functor_set / vfun_type, the
  per-vertex accumulator of pending update functors (spinlock-guarded slots).
  The lock-protected critical sections are modelled as atomic pure state
  transitions; the fatal assertions (ASSERT_LT, ASSERT_TRUE) are modelled by
  returning none (abort) versus some (normal return).
- src/apps/ms-ppr/query-flow.cpp : the multi-source personalized-PageRank
  programs (vec_type sparse maps, VertexData, DecompositionProgram,
  CollectProgram, collect_results, pagerank_writer).

Numeric weights (C++ float) are modelled as rationals; floating-point
rounding is not modelled, arithmetic is exact.  Sparse maps
(boost flat_map / unordered_map of vertex id -> weight) are modelled as
association lists; the flat_map invariant "keys unique" appears as Nodup
hypotheses where a statement needs it.
-/

namespace PowerWalk

/-- Weight type: float_type in query-flow.cpp, modelled as the rationals. -/
abbrev W : Type := ℚ

/-- Vertex id type (graphlab::vertex_id_type). -/
abbrev VId : Type := ℕ

/-- A sparse weighted map (vec_type::map_type), as an association list. -/
abbrev Vec : Type := List (VId × W)

/-- First-occurrence lookup in an association list (map find). -/
def lookupW : Vec → VId → Option W
  | [], _ => none
  | e :: rest, k => if k = e.1 then some e.2 else lookupW rest k

/-- Lookup with default 0: an absent key has weight effectively zero. -/
def lookup0 (m : Vec) (k : VId) : W := (lookupW m k).getD 0

/-- The map operation `val[k] += w`: operator[] default-inserts 0, then adds. -/
def insertAdd : Vec → VId → W → Vec
  | [], k, w => [(k, w)]
  | e :: rest, k, w =>
    if k = e.1 then (e.1, e.2 + w) :: rest else e :: insertAdd rest k w

/-- The map operation `val[k] = w`: operator[] assignment. -/
def insertSet : Vec → VId → W → Vec
  | [], k, w => [(k, w)]
  | e :: rest, k, w =>
    if k = e.1 then (e.1, w) :: rest else e :: insertSet rest k w

/-- vec_type::operator+= : for every entry of other, `val[it->first] += it->second`. -/
def mergeAdd (m other : Vec) : Vec :=
  other.foldl (fun acc e => insertAdd acc e.1 e.2) m

/-- Sum of the weights that a list of entries carries for key k. -/
def keySum (l : Vec) (k : VId) : W :=
  ((l.filter (fun e => e.1 == k)).map Prod.snd).sum

section PprModel

/-- Persistent vertex data of the ms-ppr app (query-flow.cpp VertexData):
three sparse weighted maps. -/
structure VertexData where
  ppr : Vec
  flow : Vec
  residual : Vec
deriving DecidableEq, Repr

/-- Global random reset probability (query-flow.cpp line 32: 0.15). -/
def RESET_PROB : W := 15 / 100

/-- DecompositionProgram::init (query-flow.cpp lines 141-148): at iteration 0,
if no source set is configured (sources == NULL) or the vertex is in the set,
do `flow.val[vertex.id()] = 1.0` on the program's transient flow (flow0, the
default-constructed empty map for a fresh program); at any later iteration
the transient flow becomes the delivered merged message. -/
def DecompositionProgram.init (iteration : ℕ) (sources : Option (List VId))
    (vid : VId) (flow0 : Vec) (msg : Vec) : Vec :=
  if iteration = 0 then
    match sources with
    | none => insertSet flow0 vid 1
    | some s => if vid ∈ s then insertSet flow0 vid 1 else flow0
  else msg

/-- DecompositionProgram::apply (query-flow.cpp lines 160-179).  Arguments:
the engine iteration, the configured niters, the significance threshold, the
vertex's out-degree, its persistent data, and the program's transient flow.
Returns the new persistent data and the new transient flow.  On the last
iteration the transient flow is merged into persistent flow and cleared;
otherwise each transient entry pushes RESET_PROB * weight into residual and
survives as c * weight only when that exceeds the threshold, with
c = (1 - RESET_PROB) * (1 / out_degree if out_degree > 0 else 1). -/
def DecompositionProgram.apply (iteration niters : ℕ) (threshold : W)
    (num_out_edges : ℕ) (data : VertexData) (flow : Vec) : VertexData × Vec :=
  if iteration = niters - 1 then
    ({ data with flow := mergeAdd data.flow flow }, [])
  else
    if flow = [] then (data, [])
    else
      let c : W := (1 - RESET_PROB) *
        (if num_out_edges > 0 then 1 / (num_out_edges : W) else 1)
      let step := fun (acc : Vec × Vec) (e : VId × W) =>
        (insertAdd acc.1 e.1 (RESET_PROB * e.2),
         let t := c * e.2
         if t > threshold then insertSet acc.2 e.1 t else acc.2)
      let r := flow.foldl step (data.residual, [])
      ({ data with residual := r.1 }, r.2)

/-- Construction of a boost flat_map from a range of key/value pairs:
elements are inserted one at a time in key order; an insert whose key is
already present keeps the existing entry. -/
def flatInsert : Vec → VId × W → Vec
  | [], e => [e]
  | f :: rest, e =>
    if e.1 < f.1 then e :: f :: rest
    else if e.1 = f.1 then f :: rest
    else f :: flatInsert rest e

/-- Range constructor vec_t::map_type(first, last) used by CollectProgram. -/
def toFlatMap (l : List (VId × W)) : Vec := l.foldl flatInsert []

/-- CollectProgram::apply (query-flow.cpp lines 224-229): when the delivered
message is non-empty, overwrite the vertex's persistent ppr with the
flat_map built from the message's entries; flow and residual are untouched,
and an empty message leaves ppr untouched as well. -/
def CollectProgram.apply (data : VertexData) (msg : Vec) : VertexData :=
  if msg = [] then data
  else { data with ppr := toFlatMap msg }

/-- One iteration of the flow loop of collect_results (query-flow.cpp lines
249-265), on the state (signals emitted so far, current residual): skip
insignificant entries; otherwise copy ppr scaled by the entry's weight, fold
a found residual entry for that neighbor into the copy under the sender's id
and zero it, and emit the signal. -/
def collect_step (threshold : W) (vid : VId) (ppr : Vec) :
    List (VId × Vec) × Vec → VId × W → List (VId × Vec) × Vec
  | (sigs, res), e =>
    if e.2 < threshold then (sigs, res)
    else
      let val0 := ppr.map (fun p => (p.1, p.2 * e.2))
      match lookupW res e.1 with
      | some r => (sigs ++ [(e.1, insertAdd val0 vid r)], insertSet res e.1 0)
      | none => (sigs ++ [(e.1, val0)], res)

/-- collect_results (query-flow.cpp lines 246-276).  Returns the list of
(target vertex, message) signals emitted through context.signal_vid, in
program order, together with the vertex's final persistent data.  When
no_idx is false, the flow loop (collect_step) runs over the transient flow;
afterwards every residual entry at or above the threshold is sent as the
single entry {vid: weight} to its key vertex, and residual is cleared. -/
def collect_results (no_idx : Bool) (threshold : W) (vid : VId)
    (data : VertexData) : List (VId × Vec) × VertexData :=
  let r1 :=
    if no_idx then ([], data.residual)
    else data.flow.foldl (collect_step threshold vid data.ppr) ([], data.residual)
  let sigs2 := r1.2.filterMap
    (fun e => if e.2 < threshold then none else some (e.1, [(vid, e.2)]))
  (r1.1 ++ sigs2, { data with residual := [] })

/-- The flow entries the collect_results loop does not skip: weight not
below the threshold. -/
def significant (threshold : W) (flow : Vec) : Vec :=
  flow.filter (fun e => ! decide (e.2 < threshold))

/-- VertexData::save in the INIT_GRAPH phase (query-flow.cpp lines 100-109):
each ppr weight is scaled by 0xFFFF and truncated to an integer counter. -/
def VertexData.saveIndexPhase (data : VertexData) : List (VId × ℕ) :=
  data.ppr.map (fun e => (e.1, (⌊e.2 * 65535⌋).toNat))

/-- VertexData::load in the INIT_GRAPH phase (query-flow.cpp lines 111-121):
read the integer counter map, sum the stored integers, and reconstruct each
ppr weight as stored integer divided by that sum. -/
def VertexData.loadIndexPhase (counter : List (VId × ℕ)) : Vec :=
  let sum : W := (counter.map (fun e => (e.2 : W))).sum
  counter.map (fun e => (e.1, (e.2 : W) / sum))

/-- The strict comparator passed to std::sort by pagerank_writer
(query-flow.cpp lines 278-281): earlier element has strictly larger weight. -/
def wgt_compare (a b : VId × W) : Prop := b.2 ≤ a.2

instance : DecidableRel wgt_compare := fun a b =>
  inferInstanceAs (Decidable (b.2 ≤ a.2))

instance : IsTotal (VId × W) wgt_compare := ⟨fun a b => le_total b.2 a.2⟩

instance : IsTrans (VId × W) wgt_compare :=
  ⟨fun _ _ _ h1 h2 => le_trans h2 h1⟩

/-- The std::sort call on the ppr entries: some reordering that is sorted
for the comparator; modelled deterministically by insertion sort under the
reflexive closure wgt_compare of the source's strict comparator, which is one
of the orderings std::sort may produce. -/
def sortByWeight (l : Vec) : Vec := List.insertionSort wgt_compare l

/-- pagerank_writer::save_vertex (query-flow.cpp lines 288-302): nothing for
an empty ppr; otherwise one line with the vertex id, the truncated length
k = min(topk, ppr size), and the top-k ids by decreasing weight. -/
def pagerank_writer.save_vertex (topk : ℕ) (vid : VId) (data : VertexData) :
    String :=
  if data.ppr = [] then ""
  else
    let result := sortByWeight data.ppr
    let len := min topk result.length
    ((result.take len).foldl (fun s e => s ++ " " ++ toString e.1)
      (toString vid ++ " " ++ toString len)) ++ "\n"

end PprModel

section AccumulatorModel

/-- One accumulator slot (vfun_type in part_000): a pending flag and the
pending update functor.  The constructor vfun_type() sets is_set = false
with a default-constructed (empty) functor. -/
structure vfun_type where
  is_set : Bool
  functor : Vec
deriving DecidableEq, Repr

/-- vfun_type::set (part_000 lines 65-72): under the slot lock, if a functor
is pending merge the new one into it via operator+=, otherwise store it and
raise the flag; returns true exactly when the slot was not previously set. -/
def vfun_type.set (s : vfun_type) (other : Vec) : Bool × vfun_type :=
  let already_set := s.is_set
  let s' := if s.is_set then { s with functor := mergeAdd s.functor other }
            else { is_set := true, functor := other }
  (!already_set, s')

/-- vfun_type::get (part_000 lines 73-81): ASSERT_TRUE(is_set) — modelled as
none on violation — then copy the functor out, clear the flag and return.
The source stores `ret = functor`, clears is_set (the functor field itself is
not modified) and returns the functor field, which at that point still holds
the same value as ret; in this sequential model the returned value is that
common value. -/
def vfun_type.get (s : vfun_type) : Option (Vec × vfun_type) :=
  if s.is_set then some (s.functor, { s with is_set := false }) else none

/-- vfun_type::priority (part_000 lines 82-88): under the lock, report the
pending flag and the functor's priority without consuming anything.  The
update functor type is generic, so its priority function is a parameter. -/
def vfun_type.priority (s : vfun_type) (prio : Vec → W) : Bool × W :=
  (s.is_set, prio s.functor)

/-- vfun_type::test_and_get (part_000 lines 89-98): under the lock, if a
functor is pending copy it out and clear the flag returning success, else
fail; (some payload, cleared slot) models success with ret assigned. -/
def vfun_type.test_and_get (s : vfun_type) : Option Vec × vfun_type :=
  if s.is_set then (some s.functor, { s with is_set := false }) else (none, s)

/-- The accumulator (vertex_functor_set in part_000): one slot per vertex. -/
structure vertex_functor_set where
  vfun_set : List vfun_type
deriving DecidableEq, Repr

/-- vertex_functor_set::size. -/
def vertex_functor_set.size (a : vertex_functor_set) : ℕ := a.vfun_set.length

/-- vertex_functor_set::resize: std::vector::resize keeps the first n slots
and default-constructs (unset, empty) any new ones. -/
def vertex_functor_set.resize (a : vertex_functor_set) (n : ℕ) : vertex_functor_set :=
  ⟨a.vfun_set.take n ++ List.replicate (n - a.vfun_set.length) ⟨false, []⟩⟩

/-- vertex_functor_set::add (part_000 lines 126-130): ASSERT_LT(vid, size)
— none models the fatal assertion — then delegate to the slot's set. -/
def vertex_functor_set.add (a : vertex_functor_set) (vid : VId) (f : Vec) :
    Option (Bool × vertex_functor_set) :=
  if h : vid < a.vfun_set.length then
    let r := (a.vfun_set.get ⟨vid, h⟩).set f
    some (r.1, ⟨a.vfun_set.set vid r.2⟩)
  else none

/-- vertex_functor_set::test_and_get (part_000 lines 133-137):
ASSERT_LT(vid, size), then the slot's test_and_get. -/
def vertex_functor_set.test_and_get (a : vertex_functor_set) (vid : VId) :
    Option (Option Vec × vertex_functor_set) :=
  if h : vid < a.vfun_set.length then
    let r := (a.vfun_set.get ⟨vid, h⟩).test_and_get
    some (r.1, ⟨a.vfun_set.set vid r.2⟩)
  else none

/-- vertex_functor_set::priority (part_000 lines 118-121):
ASSERT_LT(vid, size), then the slot's priority. -/
def vertex_functor_set.priority (a : vertex_functor_set) (prio : Vec → W) (vid : VId) :
    Option (Bool × W) :=
  if h : vid < a.vfun_set.length then
    some ((a.vfun_set.get ⟨vid, h⟩).priority prio)
  else none

end AccumulatorModel

section MapLemmas

/-- A key is absent exactly when lookup returns none. -/
lemma lookupW_eq_none_iff (m : Vec) (k : VId) :
    lookupW m k = none ↔ k ∉ m.map Prod.fst := by
  induction m with
  | nil => simp [lookupW]
  | cons e rest ih =>
    by_cases h : k = e.1
    · simp [lookupW, h]
    · simp [lookupW, h, ih]

/-- Lookup-with-default after a += insertion. -/
lemma lookup0_insertAdd (m : Vec) (k0 : VId) (w : W) (k : VId) :
    lookup0 (insertAdd m k0 w) k = lookup0 m k + if k = k0 then w else 0 := by
  induction m with
  | nil => by_cases h : k = k0 <;> simp [insertAdd, lookup0, lookupW, h]
  | cons e rest ih =>
    by_cases h : k0 = e.1
    · by_cases h2 : k = e.1
      · have hk : k = k0 := h2.trans h.symm
        simp [insertAdd, lookup0, lookupW, h, h2, hk]
      · have hk : k ≠ k0 := fun hkk => h2 (hkk.trans h)
        simp [insertAdd, lookup0, lookupW, h, h2, hk]
    · by_cases h2 : k = e.1
      · have hk : k ≠ k0 := fun hkk => h (hkk.symm.trans h2)
        have hk2 : e.1 ≠ k0 := fun hkk => h hkk.symm
        simp [insertAdd, lookup0, lookupW, h, h2, hk, hk2]
      · simpa [insertAdd, lookup0, lookupW, h, h2] using ih

/-- Lookup at the assigned key after an = insertion. -/
lemma lookupW_insertSet_self (m : Vec) (k : VId) (w : W) :
    lookupW (insertSet m k w) k = some w := by
  induction m with
  | nil => simp [insertSet, lookupW]
  | cons e rest ih =>
    by_cases h : k = e.1 <;> simp [insertSet, lookupW, h, ih]

/-- Lookup at another key after an = insertion. -/
lemma lookupW_insertSet_ne (m : Vec) (k0 : VId) (w : W) (k : VId) (h : k ≠ k0) :
    lookupW (insertSet m k0 w) k = lookupW m k := by
  induction m with
  | nil => simp [insertSet, lookupW, h]
  | cons e rest ih =>
    by_cases h2 : k0 = e.1
    · have : k ≠ e.1 := fun hk => h (hk.trans h2.symm)
      simp [insertSet, lookupW, h2, this]
    · by_cases h3 : k = e.1 <;> simp [insertSet, lookupW, h2, h3, ih]

/-- Folding += insertions accumulates, per key, the sum of the pushed
weights over the matching entries of the pushed list. -/
lemma lookup0_foldl_insertAdd (g : VId × W → W) (l : Vec) :
    ∀ (m : Vec) (k : VId),
    lookup0 (l.foldl (fun r e => insertAdd r e.1 (g e)) m) k
      = lookup0 m k + ((l.filter (fun e => e.1 == k)).map g).sum := by
  induction l with
  | nil => intro m k; simp
  | cons e rest ih =>
    intro m k
    rw [List.foldl_cons, ih, lookup0_insertAdd]
    by_cases h : e.1 = k
    · have h2 : k = e.1 := h.symm
      have hb : (e.1 == k) = true := by simp [h]
      rw [if_pos h2]
      simp [List.filter_cons, hb]
      ring
    · have h2 : k ≠ e.1 := fun hk => h hk.symm
      have hb : (e.1 == k) = false := by simp [h]
      rw [if_neg h2]
      simp [List.filter_cons, hb]

/-- With unique keys, the entries matching a present key are exactly that
single entry. -/
lemma filter_key_single (l : Vec) (k : VId) (w : W)
    (nd : (l.map Prod.fst).Nodup) (hm : (k, w) ∈ l) :
    l.filter (fun e => e.1 == k) = [(k, w)] := by
  induction l with
  | nil => cases hm
  | cons e rest ih =>
    rw [List.map_cons, List.nodup_cons] at nd
    rcases List.mem_cons.mp hm with he | hrest
    · subst he
      have hfil : rest.filter (fun e2 => e2.1 == k) = [] := by
        refine List.filter_eq_nil_iff.mpr (fun e2 he2 hbeq => ?_)
        have heq : e2.1 = k := by simpa using hbeq
        have hmem : e2.1 ∈ rest.map Prod.fst := List.mem_map_of_mem Prod.fst he2
        rw [heq] at hmem
        exact nd.1 hmem
      simp [List.filter_cons, hfil]
    · have hk : k ∈ rest.map Prod.fst := List.mem_map_of_mem Prod.fst hrest
      have hne : (e.1 == k) = false := by
        simp only [beq_eq_false_iff_ne, ne_eq]
        exact fun hk2 => nd.1 (by rw [hk2]; exact hk)
      simp [List.filter_cons, hne, ih nd.2 hrest]

/-- No entry matches an absent key. -/
lemma filter_key_nil (l : Vec) (k : VId) (h : k ∉ l.map Prod.fst) :
    l.filter (fun e => e.1 == k) = [] := by
  refine List.filter_eq_nil_iff.mpr (fun e he hbeq => ?_)
  have : e.1 = k := by simpa using hbeq
  exact h (this ▸ List.mem_map_of_mem Prod.fst he)

/-- Per-key reading of vec_type::operator+=. -/
lemma lookup0_mergeAdd (m o : Vec) (k : VId) :
    lookup0 (mergeAdd m o) k = lookup0 m k + keySum o k := by
  unfold mergeAdd keySum
  exact lookup0_foldl_insertAdd Prod.snd o m k

/-- Left-folding a componentwise step over a pair runs the two folds
independently. -/
lemma foldl_pair_split {α β γ : Type} (f : β → α → β) (g : γ → α → γ)
    (l : List α) : ∀ (b : β) (c : γ),
    l.foldl (fun acc e => (f acc.1 e, g acc.2 e)) (b, c)
      = (l.foldl f b, l.foldl g c) := by
  induction l with
  | nil => intro b c; rfl
  | cons e rest ih => intro b c; exact ih (f b e) (g c e)

/-- The conditional-assignment fold of DecompositionProgram::apply does not
touch keys outside the folded list. -/
lemma nf_foldl_preserve (c thr : W) (l : Vec) :
    ∀ (m0 : Vec) (k : VId), k ∉ l.map Prod.fst →
    lookupW (l.foldl
      (fun m e => if c * e.2 > thr then insertSet m e.1 (c * e.2) else m) m0) k
      = lookupW m0 k := by
  induction l with
  | nil => intro m0 k _; rfl
  | cons e rest ih =>
    intro m0 k hk
    rw [List.map_cons, List.mem_cons, not_or] at hk
    rw [List.foldl_cons, ih _ _ hk.2]
    by_cases hc : c * e.2 > thr
    · rw [if_pos hc, lookupW_insertSet_ne _ _ _ _ hk.1]
    · rw [if_neg hc]

/-- The conditional-assignment fold of DecompositionProgram::apply, read at
a key of the folded list (keys unique, key fresh in the accumulator): the
entry is present with value c * w exactly when c * w exceeds the
threshold. -/
lemma nf_foldl_mem (c thr : W) (l : Vec) :
    ∀ (m0 : Vec) (k : VId) (w : W),
    (l.map Prod.fst).Nodup → (k, w) ∈ l → lookupW m0 k = none →
    lookupW (l.foldl
      (fun m e => if c * e.2 > thr then insertSet m e.1 (c * e.2) else m) m0) k
      = if c * w > thr then some (c * w) else none := by
  induction l with
  | nil => intro m0 k w _ hm; cases hm
  | cons e rest ih =>
    intro m0 k w nd hm h0
    rw [List.map_cons, List.nodup_cons] at nd
    rw [List.foldl_cons]
    rcases List.mem_cons.mp hm with he | hrest
    · subst he
      have hk : k ∉ rest.map Prod.fst := nd.1
      rw [nf_foldl_preserve c thr rest _ _ hk]
      show lookupW (if c * w > thr then insertSet m0 k (c * w) else m0) k
        = if c * w > thr then some (c * w) else none
      by_cases hc : c * w > thr
      · rw [if_pos hc, if_pos hc, lookupW_insertSet_self]
      · rw [if_neg hc, if_neg hc, h0]
    · have hk : k ∈ rest.map Prod.fst := List.mem_map_of_mem Prod.fst hrest
      have hne : k ≠ e.1 := fun hk2 => nd.1 (hk2 ▸ hk)
      refine ih _ _ _ nd.2 hrest ?_
      by_cases hc : c * e.2 > thr
      · rw [if_pos hc, lookupW_insertSet_ne _ _ _ _ hne]; exact h0
      · rw [if_neg hc]; exact h0

/-- Lookup after one flat_map insert with a key fresh in the map. -/
lemma lookupW_flatInsert_fresh (m : Vec) (e : VId × W)
    (hf : lookupW m e.1 = none) (k : VId) :
    lookupW (flatInsert m e) k = if k = e.1 then some e.2 else lookupW m k := by
  induction m with
  | nil => by_cases h : k = e.1 <;> simp [flatInsert, lookupW, h]
  | cons f rest ih =>
    rw [lookupW] at hf
    by_cases h1 : e.1 = f.1
    · rw [if_pos h1] at hf; cases hf
    · rw [if_neg h1] at hf
      by_cases h2 : e.1 < f.1
      · rw [flatInsert, if_pos h2]
        by_cases h3 : k = e.1 <;> simp [lookupW, h3]
      · rw [flatInsert, if_neg h2, if_neg h1]
        by_cases h3 : k = f.1
        · have h4 : k ≠ e.1 := fun hk => h1 (hk.symm.trans h3)
          have h5 : f.1 ≠ e.1 := fun hh => h1 hh.symm
          simp [lookupW, h3, h4, h5]
        · simp only [lookupW, if_neg h3]
          exact ih hf

/-- Building a flat_map by repeated inserts of fresh, pairwise distinct
keys: a lookup reads the accumulator first, then the inserted range. -/
lemma lookupW_foldl_flatInsert (l : List (VId × W)) :
    ∀ (m : Vec), (∀ e ∈ l, lookupW m e.1 = none) → (l.map Prod.fst).Nodup →
    ∀ k, lookupW (l.foldl flatInsert m) k =
      (match lookupW m k with
       | some v => some v
       | none => lookupW l k) := by
  induction l with
  | nil =>
    intro m _ _ k
    cases h : lookupW m k <;> simp [h, lookupW]
  | cons e rest ih =>
    intro m hfresh nd k
    rw [List.map_cons, List.nodup_cons] at nd
    have he : lookupW m e.1 = none := hfresh e (List.mem_cons_self e rest)
    have hfresh2 : ∀ f ∈ rest, lookupW (flatInsert m e) f.1 = none := by
      intro f hf
      have hne : f.1 ≠ e.1 := fun h => nd.1 (h ▸ List.mem_map_of_mem Prod.fst hf)
      rw [lookupW_flatInsert_fresh m e he, if_neg hne]
      exact hfresh f (List.mem_cons_of_mem e hf)
    rw [List.foldl_cons, ih (flatInsert m e) hfresh2 nd.2 k,
      lookupW_flatInsert_fresh m e he]
    by_cases h : k = e.1
    · rw [if_pos h, h, he]
      simp [lookupW]
    · rw [if_neg h]
      cases h2 : lookupW m k <;> simp [lookupW, h, h2]

/-- With unique keys, the flat_map range constructor preserves the
key-to-weight mapping. -/
lemma lookupW_toFlatMap (l : List (VId × W))
    (nd : (l.map Prod.fst).Nodup) (k : VId) :
    lookupW (toFlatMap l) k = lookupW l k := by
  have h := lookupW_foldl_flatInsert l [] (fun e _ => rfl) nd k
  simpa [toFlatMap, lookupW] using h

end MapLemmas

section AccumulatorLemmas

/-- Unfolding of vertex_functor_set.add when the index is in range. -/
lemma vertex_functor_set.add_eq (a : vertex_functor_set) (v : VId) (f : Vec)
    (h : v < a.vfun_set.length) :
    a.add v f = some (((a.vfun_set.get ⟨v, h⟩).set f).1,
      ⟨a.vfun_set.set v ((a.vfun_set.get ⟨v, h⟩).set f).2⟩) := by
  unfold vertex_functor_set.add
  rw [dif_pos h]

/-- Unfolding of vertex_functor_set.test_and_get when the index is in range. -/
lemma vertex_functor_set.test_and_get_eq (a : vertex_functor_set) (v : VId)
    (h : v < a.vfun_set.length) :
    a.test_and_get v = some ((a.vfun_set.get ⟨v, h⟩).test_and_get.1,
      ⟨a.vfun_set.set v (a.vfun_set.get ⟨v, h⟩).test_and_get.2⟩) := by
  unfold vertex_functor_set.test_and_get
  rw [dif_pos h]

/-- Resizing the freshly constructed empty accumulator yields n unset slots. -/
lemma resize_empty (n : ℕ) :
    (vertex_functor_set.mk []).resize n = ⟨List.replicate n ⟨false, []⟩⟩ := by
  simp [vertex_functor_set.resize]

end AccumulatorLemmas

section CollectLemmas

/-- With unique keys, a present entry is what lookup returns. -/
lemma lookupW_eq_some_of_nodup (l : Vec) (k : VId) (v : W)
    (nd : (l.map Prod.fst).Nodup) (hm : (k, v) ∈ l) : lookupW l k = some v := by
  induction l with
  | nil => cases hm
  | cons e rest ih =>
    rw [List.map_cons, List.nodup_cons] at nd
    rcases List.mem_cons.mp hm with he | hrest
    · subst he
      simp [lookupW]
    · have hk : k ∈ rest.map Prod.fst := List.mem_map_of_mem Prod.fst hrest
      have hne : k ≠ e.1 := fun hh => nd.1 (hh ▸ hk)
      rw [lookupW, if_neg hne]
      exact ih nd.2 hrest

/-- A successful lookup names an entry of the list. -/
lemma mem_of_lookupW_eq_some (l : Vec) (k : VId) (v : W)
    (h : lookupW l k = some v) : (k, v) ∈ l := by
  induction l with
  | nil => cases h
  | cons e rest ih =>
    rw [lookupW] at h
    by_cases hk : k = e.1
    · rw [if_pos hk] at h
      have hv : v = e.2 := (Option.some.injEq _ _).mp h.symm
      rw [hk, hv]
      exact List.mem_cons_self _ _
    · rw [if_neg hk] at h
      exact List.mem_cons_of_mem e (ih h)

/-- collect_step on an insignificant flow entry is a no-op. -/
lemma collect_step_skip (thr : W) (vid : VId) (ppr : Vec)
    (sigs : List (VId × Vec)) (res : Vec) (e : VId × W) (he : e.2 < thr) :
    collect_step thr vid ppr (sigs, res) e = (sigs, res) := by
  simp [collect_step, he]

/-- collect_step on a significant flow entry whose neighbor has a residual
entry: emit the scaled ppr with the residual folded in under the sender's
id, and zero that residual entry. -/
lemma collect_step_found (thr : W) (vid : VId) (ppr : Vec)
    (sigs : List (VId × Vec)) (res : Vec) (n : VId) (w r : W)
    (hw : ¬ w < thr) (hr : lookupW res n = some r) :
    collect_step thr vid ppr (sigs, res) (n, w)
      = (sigs ++ [(n, insertAdd (ppr.map (fun p => (p.1, p.2 * w))) vid r)],
         insertSet res n 0) := by
  simp [collect_step, hw, hr]

/-- collect_step on a significant flow entry with no matching residual
entry: emit the scaled ppr unchanged. -/
lemma collect_step_notfound (thr : W) (vid : VId) (ppr : Vec)
    (sigs : List (VId × Vec)) (res : Vec) (n : VId) (w : W)
    (hw : ¬ w < thr) (hr : lookupW res n = none) :
    collect_step thr vid ppr (sigs, res) (n, w)
      = (sigs ++ [(n, ppr.map (fun p => (p.1, p.2 * w)))], res) := by
  simp [collect_step, hw, hr]

/-- Signals already emitted stay in the flow fold's output. -/
lemma collect_fold_mem_mono (thr : W) (vid : VId) (ppr : Vec) (flow : Vec) :
    ∀ (acc : List (VId × Vec) × Vec) (s : VId × Vec), s ∈ acc.1 →
    s ∈ (flow.foldl (collect_step thr vid ppr) acc).1 := by
  induction flow with
  | nil => intro acc s hs; exact hs
  | cons e rest ih =>
    intro acc s hs
    rw [List.foldl_cons]
    refine ih _ s ?_
    rcases acc with ⟨sigs, res⟩
    by_cases he : e.2 < thr
    · rw [collect_step_skip thr vid ppr sigs res e he]
      exact hs
    · cases hr : lookupW res e.1 with
      | some r =>
        rw [collect_step_found thr vid ppr sigs res e.1 e.2 r he hr]
        exact List.mem_append_left _ hs
      | none =>
        rw [collect_step_notfound thr vid ppr sigs res e.1 e.2 he hr]
        exact List.mem_append_left _ hs

/-- Every significant flow entry emits its signal: the ppr vector scaled by
the entry's weight, with the neighbor's original residual value (when
present) folded in under the sender's id.  The residual parameter resOrig is
the residual before the loop; the invariant hypothesis says the keys still
to be processed read their original residual value. -/
lemma collect_fold_flow_signal (thr : W) (vid : VId) (ppr : Vec)
    (resOrig : Vec) (flow : Vec) :
    ∀ (sigs0 : List (VId × Vec)) (res0 : Vec),
    (flow.map Prod.fst).Nodup →
    (∀ e ∈ flow, lookupW res0 e.1 = lookupW resOrig e.1) →
    ∀ n w, (n, w) ∈ flow → ¬ w < thr →
    (n, (match lookupW resOrig n with
         | some r => insertAdd (ppr.map (fun p => (p.1, p.2 * w))) vid r
         | none => ppr.map (fun p => (p.1, p.2 * w))))
      ∈ (flow.foldl (collect_step thr vid ppr) (sigs0, res0)).1 := by
  induction flow with
  | nil => intro _ _ _ _ n w hm; cases hm
  | cons e rest ih =>
    intro sigs0 res0 nd hinv n w hm hw
    rw [List.map_cons, List.nodup_cons] at nd
    rw [List.foldl_cons]
    rcases List.mem_cons.mp hm with he | hrest
    · subst he
      have hres : lookupW res0 n = lookupW resOrig n :=
        hinv (n, w) (List.mem_cons_self _ _)
      cases hl : lookupW resOrig n with
      | some r =>
        rw [collect_step_found thr vid ppr sigs0 res0 n w r hw
          (hres.trans hl)]
        refine collect_fold_mem_mono thr vid ppr rest _ _ ?_
        exact List.mem_append_right _ (by simp)
      | none =>
        rw [collect_step_notfound thr vid ppr sigs0 res0 n w hw
          (hres.trans hl)]
        refine collect_fold_mem_mono thr vid ppr rest _ _ ?_
        exact List.mem_append_right _ (by simp)
    · have hstep : ∀ f ∈ rest,
          lookupW (collect_step thr vid ppr (sigs0, res0) e).2 f.1
            = lookupW resOrig f.1 := by
        intro f hf
        have hne : f.1 ≠ e.1 :=
          fun hh => nd.1 (hh ▸ List.mem_map_of_mem Prod.fst hf)
        have horig : lookupW res0 f.1 = lookupW resOrig f.1 :=
          hinv f (List.mem_cons_of_mem e hf)
        by_cases he2 : e.2 < thr
        · rw [collect_step_skip thr vid ppr sigs0 res0 e he2]
          exact horig
        · cases hr : lookupW res0 e.1 with
          | some r =>
            rw [collect_step_found thr vid ppr sigs0 res0 e.1 e.2 r he2 hr]
            show lookupW (insertSet res0 e.1 0) f.1 = lookupW resOrig f.1
            rw [lookupW_insertSet_ne _ _ _ _ hne]
            exact horig
          | none =>
            rw [collect_step_notfound thr vid ppr sigs0 res0 e.1 e.2 he2 hr]
            exact horig
      rcases hacc : collect_step thr vid ppr (sigs0, res0) e with ⟨sigs1, res1⟩
      rw [hacc] at hstep
      exact ih sigs1 res1 nd.2 (fun f hf => hstep f hf) n w hrest hw

/-- Final residual of the flow fold, per key: a significant flow key that
had a residual entry reads 0 afterwards, every other key is untouched. -/
lemma collect_fold_residual (thr : W) (vid : VId) (ppr : Vec) (flow : Vec) :
    ∀ (sigs0 : List (VId × Vec)) (res0 : Vec) (k : VId),
    lookupW (flow.foldl (collect_step thr vid ppr) (sigs0, res0)).2 k
      = if k ∈ (significant thr flow).map Prod.fst then
          (match lookupW res0 k with
           | some _ => some (0 : W)
           | none => none)
        else lookupW res0 k := by
  induction flow with
  | nil => intro sigs0 res0 k; simp [significant]
  | cons e rest ih =>
    intro sigs0 res0 k
    rw [List.foldl_cons]
    by_cases he : e.2 < thr
    · have hsig : significant thr (e :: rest) = significant thr rest := by
        simp [significant, List.filter_cons, he]
      rw [collect_step_skip thr vid ppr sigs0 res0 e he, ih, hsig]
    · have hsig : significant thr (e :: rest) = e :: significant thr rest := by
        simp [significant, List.filter_cons, he]
      cases hl : lookupW res0 e.1 with
      | some r =>
        rw [collect_step_found thr vid ppr sigs0 res0 e.1 e.2 r he hl, ih,
          hsig, List.map_cons]
        by_cases hk : k = e.1
        · subst hk
          rw [lookupW_insertSet_self, hl]
          simp
        · rw [lookupW_insertSet_ne _ _ _ _ hk]
          have hcons : (k ∈ e.1 :: (significant thr rest).map Prod.fst)
              ↔ k ∈ (significant thr rest).map Prod.fst := by
            rw [List.mem_cons]
            simp [hk]
          by_cases hmem : k ∈ (significant thr rest).map Prod.fst
          · rw [if_pos hmem, if_pos (hcons.mpr hmem)]
          · rw [if_neg hmem, if_neg (fun hh => hmem (hcons.mp hh))]
      | none =>
        rw [collect_step_notfound thr vid ppr sigs0 res0 e.1 e.2 he hl, ih,
          hsig, List.map_cons]
        by_cases hk : k = e.1
        · subst hk
          rw [hl]
          simp
        · have hcons : (k ∈ e.1 :: (significant thr rest).map Prod.fst)
              ↔ k ∈ (significant thr rest).map Prod.fst := by
            rw [List.mem_cons]
            simp [hk]
          by_cases hmem : k ∈ (significant thr rest).map Prod.fst
          · rw [if_pos hmem, if_pos (hcons.mpr hmem)]
          · rw [if_neg hmem, if_neg (fun hh => hmem (hcons.mp hh))]

end CollectLemmas

/-- C1: after resize(n), with slot v < n initially unset, a first add(v, p1)
returns true, a second add(v, p2) before any consumption returns false and
merges p2 into the pending payload, a following test_and_get(v) returns
merge_add(p1, p2), and an immediately following test_and_get(v) returns
none. -/
theorem accumulator_add_merge_consume (n : ℕ) (v : VId) (p1 p2 : Vec) (hv : v < n) :
    ∃ a1 a2 a3 a4 : vertex_functor_set,
      ((vertex_functor_set.mk []).resize n).add v p1 = some (true, a1) ∧
      a1.add v p2 = some (false, a2) ∧
      a2.test_and_get v = some (some (mergeAdd p1 p2), a3) ∧
      a3.test_and_get v = some (none, a4) := by
  have hlen0 : ((List.replicate n (⟨false, []⟩ : vfun_type))).length = n :=
    List.length_replicate n _
  set l0 : List vfun_type := List.replicate n ⟨false, []⟩ with hl0
  have h0 : v < l0.length := by rw [hlen0]; exact hv
  set s1 : vfun_type := ⟨true, p1⟩ with hs1
  set l1 : List vfun_type := l0.set v s1 with hl1
  have h1 : v < l1.length := by rw [hl1, List.length_set]; exact h0
  set s2 : vfun_type := ⟨true, mergeAdd p1 p2⟩ with hs2
  set l2 : List vfun_type := l1.set v s2 with hl2
  have h2 : v < l2.length := by rw [hl2, List.length_set]; exact h1
  set s3 : vfun_type := ⟨false, mergeAdd p1 p2⟩ with hs3
  set l3 : List vfun_type := l2.set v s3 with hl3
  have h3 : v < l3.length := by rw [hl3, List.length_set]; exact h2
  refine ⟨⟨l1⟩, ⟨l2⟩, ⟨l3⟩, ⟨l3.set v s3⟩, ?_, ?_, ?_, ?_⟩
  · rw [resize_empty]
    rw [vertex_functor_set.add_eq _ v p1 h0]
    have hget : l0.get ⟨v, h0⟩ = ⟨false, []⟩ := by
      simp [hl0]
    rw [hget]
    simp [vfun_type.set, hs1, hl1]
  · rw [vertex_functor_set.add_eq _ v p2 h1]
    have hget : l1.get ⟨v, h1⟩ = s1 := by
      simp [hl1]
    rw [hget]
    simp [vfun_type.set, hs1, hs2, hl2, hl1, List.set_set]
  · rw [vertex_functor_set.test_and_get_eq _ v h2]
    have hget : l2.get ⟨v, h2⟩ = s2 := by
      simp [hl2]
    rw [hget]
    simp [vfun_type.test_and_get, hs2, hs3, hl3, hl2, List.set_set]
  · rw [vertex_functor_set.test_and_get_eq _ v h3]
    have hget : l3.get ⟨v, h3⟩ = s3 := by
      simp [hl3]
    rw [hget]
    simp [vfun_type.test_and_get, hs3, hl3, List.set_set]

/-- Witness for C1 at n = 5, v = 3 and concrete payloads. -/
theorem accumulator_add_merge_consume_witness :
    (3 : ℕ) < 5 ∧
    ∃ a1 a2 a3 a4 : vertex_functor_set,
      ((vertex_functor_set.mk []).resize 5).add 3 [(0, (1 : W))] = some (true, a1) ∧
      a1.add 3 [(0, (2 : W)), (1, 1)] = some (false, a2) ∧
      a2.test_and_get 3 = some (some (mergeAdd [(0, (1 : W))] [(0, 2), (1, 1)]), a3) ∧
      a3.test_and_get 3 = some (none, a4) :=
  ⟨by decide, accumulator_add_merge_consume 5 3 [(0, 1)] [(0, 2), (1, 1)] (by decide)⟩

/-- C4: on a slot whose pending flag is set, get copies the payload out,
clears the pending flag and returns that payload, which is exactly the
payload and final state test_and_get produces on the same slot. -/
theorem slot_get_refines_test_and_get (s : vfun_type) (h : s.is_set = true) :
    ∃ p : Vec, ∃ s' : vfun_type,
      s.get = some (p, s') ∧ s.test_and_get = (some p, s') ∧
      p = s.functor ∧ s' = { s with is_set := false } := by
  exact ⟨s.functor, { s with is_set := false },
    by simp [vfun_type.get, h], by simp [vfun_type.test_and_get, h], rfl, rfl⟩

/-- Witness for C4 on a concrete pending slot. -/
theorem slot_get_refines_test_and_get_witness :
    ∃ p : Vec, ∃ s' : vfun_type,
      (vfun_type.mk true [(2, (1 : W))]).get = some (p, s') ∧
      (vfun_type.mk true [(2, (1 : W))]).test_and_get = (some p, s') ∧
      p = (vfun_type.mk true [(2, (1 : W))]).functor ∧
      s' = { vfun_type.mk true [(2, (1 : W))] with is_set := false } :=
  slot_get_refines_test_and_get (vfun_type.mk true [(2, 1)]) rfl

/-- C9: add, test_and_get and priority called with a vertex id at or above
the slot count hit the fatal ASSERT_LT (modelled: none), and get on a slot
whose pending flag is unset hits ASSERT_TRUE (none); under the preconditions
id < n, and pending set for get, the assertion branches are unreachable (the
calls return normally, modelled: isSome). -/
theorem accumulator_assert_bounds (prio : Vec → W) (a : vertex_functor_set)
    (vid : VId) (f : Vec) (s : vfun_type) :
    (a.size ≤ vid →
      a.add vid f = none ∧ a.test_and_get vid = none ∧ a.priority prio vid = none) ∧
    (vid < a.size →
      (a.add vid f).isSome ∧ (a.test_and_get vid).isSome ∧
        (a.priority prio vid).isSome) ∧
    (s.is_set = false → s.get = none) ∧
    (s.is_set = true → s.get.isSome) := by
  refine ⟨fun h => ?_, fun h => ?_, fun h => ?_, fun h => ?_⟩
  · have h' : ¬ vid < a.vfun_set.length := not_lt.mpr h
    refine ⟨?_, ?_, ?_⟩ <;>
      simp [vertex_functor_set.add, vertex_functor_set.test_and_get,
        vertex_functor_set.priority, h']
  · have h' : vid < a.vfun_set.length := h
    refine ⟨?_, ?_, ?_⟩ <;>
      simp [vertex_functor_set.add, vertex_functor_set.test_and_get,
        vertex_functor_set.priority, h']
  · simp [vfun_type.get, h]
  · simp [vfun_type.get, h]

/-- Witness for C9 on a one-slot accumulator: id 5 is out of range, id 0 in
range; get aborts on an unset slot and succeeds on a set one. -/
theorem accumulator_assert_bounds_witness :
    ((vertex_functor_set.mk [⟨false, []⟩]).size ≤ 5 ∧
      (vertex_functor_set.mk [⟨false, []⟩]).add 5 [] = none ∧
      (vertex_functor_set.mk [⟨false, []⟩]).test_and_get 5 = none ∧
      (vertex_functor_set.mk [⟨false, []⟩]).priority (fun _ => 0) 5 = none) ∧
    ((0 : VId) < (vertex_functor_set.mk [⟨false, []⟩]).size ∧
      ((vertex_functor_set.mk [⟨false, []⟩]).add 0 []).isSome) ∧
    (vfun_type.mk false []).get = none ∧
    ((vfun_type.mk true [(1, (1 : W))]).get).isSome := by
  have h5 := accumulator_assert_bounds (fun _ => 0)
    (vertex_functor_set.mk [⟨false, []⟩]) 5 [] (vfun_type.mk false [])
  have h0 := accumulator_assert_bounds (fun _ => 0)
    (vertex_functor_set.mk [⟨false, []⟩]) 0 [] (vfun_type.mk true [(1, 1)])
  exact ⟨⟨by decide, h5.1 (by decide)⟩,
    ⟨by decide, (h0.2.1 (by decide)).1⟩,
    h5.2.2.1 rfl, h0.2.2.2 rfl⟩

/-- C5: DecompositionProgram::init at round 0 seeds a fresh program's flow
with the self-entry of weight 1.0 exactly for vertices passing the source
filter (every vertex when no source set is configured, only members when one
is configured); at any round greater than 0 the transient flow becomes
exactly the delivered merged message, discarding prior transient state. -/
theorem decomposition_init_seeding (iteration : ℕ) (s : List VId) (vid : VId)
    (flow0 msg : Vec) :
    (iteration = 0 →
      DecompositionProgram.init iteration none vid [] msg = [(vid, 1)]) ∧
    (iteration = 0 → vid ∈ s →
      DecompositionProgram.init iteration (some s) vid [] msg = [(vid, 1)]) ∧
    (iteration = 0 → vid ∉ s →
      DecompositionProgram.init iteration (some s) vid [] msg = []) ∧
    (iteration ≠ 0 → ∀ sources : Option (List VId),
      DecompositionProgram.init iteration sources vid flow0 msg = msg) := by
  refine ⟨fun h => ?_, fun h hm => ?_, fun h hm => ?_, fun h sources => ?_⟩
  · simp [DecompositionProgram.init, h, insertSet]
  · simp [DecompositionProgram.init, h, hm, insertSet]
  · simp [DecompositionProgram.init, h, hm]
  · simp [DecompositionProgram.init, h]

/-- Witness for C5: round 0 with no sources, round 0 in/out of a source set,
and a later round that takes the message verbatim. -/
theorem decomposition_init_seeding_witness :
    DecompositionProgram.init 0 none 7 [] [(3, (1 : W) / 2)] = [(7, 1)] ∧
    DecompositionProgram.init 0 (some [7]) 7 [] [(3, (1 : W) / 2)] = [(7, 1)] ∧
    DecompositionProgram.init 0 (some [4]) 7 [] [(3, (1 : W) / 2)] = [] ∧
    DecompositionProgram.init 2 (some [4]) 7 [(2, 1)] [(3, (1 : W) / 2)]
      = [(3, (1 : W) / 2)] :=
  ⟨(decomposition_init_seeding 0 [] 7 [] [(3, 1 / 2)]).1 rfl,
   (decomposition_init_seeding 0 [7] 7 [] [(3, 1 / 2)]).2.1 rfl (by decide),
   (decomposition_init_seeding 0 [4] 7 [] [(3, 1 / 2)]).2.2.1 rfl (by decide),
   (decomposition_init_seeding 2 [4] 7 [(2, 1)] [(3, 1 / 2)]).2.2.2
     (by decide) (some [4])⟩

/-- C8: on the last round (iteration = niters - 1), apply merges the whole
transient flow into the persistent flow field (per key, adding the flow
list's weight), clears the transient flow, and leaves ppr and residual
untouched. -/
theorem decomposition_apply_final (iteration niters : ℕ) (threshold : W)
    (outdeg : ℕ) (data : VertexData) (flow : Vec)
    (h : iteration = niters - 1) :
    DecompositionProgram.apply iteration niters threshold outdeg data flow
      = ({ ppr := data.ppr, flow := mergeAdd data.flow flow,
           residual := data.residual }, []) ∧
    ∀ k : VId, lookup0 (mergeAdd data.flow flow) k
      = lookup0 data.flow k + keySum flow k := by
  constructor
  · unfold DecompositionProgram.apply
    rw [if_pos h]
  · intro k
    exact lookup0_mergeAdd _ _ _

/-- Witness for C8 at iteration 2 of niters = 3 with concrete maps. -/
theorem decomposition_apply_final_witness :
    DecompositionProgram.apply 2 3 0 5
        ⟨[(1, (1 : W) / 2)], [(0, 1 / 4)], [(9, 1)]⟩ [(0, 1 / 4), (2, 1)]
      = (⟨[(1, (1 : W) / 2)], [(0, 1 / 2), (2, 1)], [(9, 1)]⟩, []) := by
  have h := (decomposition_apply_final 2 3 0 5
    ⟨[(1, 1 / 2)], [(0, 1 / 4)], [(9, 1)]⟩ [(0, 1 / 4), (2, 1)] rfl).1
  rw [h]
  norm_num [mergeAdd, insertAdd]

/-- C10: CollectProgram::apply never touches flow or residual; an empty
message leaves ppr unchanged, and a non-empty message replaces ppr wholesale
with the flat_map holding exactly the message's key-to-weight set. -/
theorem collect_apply_overwrite (data : VertexData) (msg : Vec) :
    (CollectProgram.apply data msg).flow = data.flow ∧
    (CollectProgram.apply data msg).residual = data.residual ∧
    (msg = [] → (CollectProgram.apply data msg).ppr = data.ppr) ∧
    (msg ≠ [] → (CollectProgram.apply data msg).ppr = toFlatMap msg ∧
      ((msg.map Prod.fst).Nodup →
        ∀ k, lookupW (CollectProgram.apply data msg).ppr k = lookupW msg k)) := by
  by_cases h : msg = []
  · refine ⟨?_, ?_, fun _ => ?_, fun hne => absurd h hne⟩ <;>
      simp [CollectProgram.apply, h]
  · refine ⟨?_, ?_, fun he => absurd he h, fun _ => ⟨?_, fun nd k => ?_⟩⟩
    · simp [CollectProgram.apply, h]
    · simp [CollectProgram.apply, h]
    · simp [CollectProgram.apply, h]
    · rw [show (CollectProgram.apply data msg).ppr = toFlatMap msg by
        simp [CollectProgram.apply, h]]
      exact lookupW_toFlatMap msg nd k

/-- Witness for C10 on a concrete non-empty message with unique keys. -/
theorem collect_apply_overwrite_witness :
    ([((4 : VId), (1 : W)), (2, 3)] ≠ []) ∧
    (CollectProgram.apply ⟨[(9, (5 : W))], [(8, 1)], [(7, 2)]⟩
        [(4, 1), (2, 3)]).ppr = toFlatMap [(4, 1), (2, 3)] ∧
    lookupW (CollectProgram.apply ⟨[(9, (5 : W))], [(8, 1)], [(7, 2)]⟩
        [(4, 1), (2, 3)]).ppr 2 = lookupW [((4 : VId), (1 : W)), (2, 3)] 2 := by
  have h := (collect_apply_overwrite ⟨[(9, 5)], [(8, 1)], [(7, 2)]⟩
    [(4, 1), (2, 3)]).2.2.2 (by decide)
  exact ⟨by decide, h.1, h.2 (by decide) 2⟩

/-- C6: index-phase load reconstructs each weight as the stored integer
divided by the sum S of all stored integers of that vertex, and for S > 0
the reconstructed weights sum exactly to 1 (exact arithmetic; hence within
floating-point epsilon of 1.0 for the float code). -/
theorem index_load_normalizes (counter : List (VId × ℕ))
    (hS : 0 < (counter.map (fun e => (e.2 : W))).sum) :
    VertexData.loadIndexPhase counter
      = counter.map
          (fun e => (e.1, (e.2 : W) / (counter.map (fun e2 => (e2.2 : W))).sum)) ∧
    ((VertexData.loadIndexPhase counter).map Prod.snd).sum = 1 := by
  constructor
  · rfl
  · unfold VertexData.loadIndexPhase
    rw [List.map_map]
    have hmap : (Prod.snd ∘ fun e : VId × ℕ =>
        ((e.1 : VId), (e.2 : W) / (counter.map (fun e2 => (e2.2 : W))).sum))
        = fun e : VId × ℕ =>
          (e.2 : W) * ((counter.map (fun e2 => (e2.2 : W))).sum)⁻¹ := by
      funext e
      simp [div_eq_mul_inv]
    rw [hmap]
    rw [List.sum_map_mul_right counter (fun e : VId × ℕ => (e.2 : W))
      ((counter.map (fun e2 => (e2.2 : W))).sum)⁻¹]
    exact mul_inv_cancel₀ (ne_of_gt hS)

/-- Witness for C6 on stored integers 2 and 3: weights 2/5 and 3/5, sum 1. -/
theorem index_load_normalizes_witness :
    (0 : W) < ([((1 : VId), (2 : ℕ)), (3, 3)].map (fun e => (e.2 : W))).sum ∧
    ((VertexData.loadIndexPhase [(1, 2), (3, 3)]).map Prod.snd).sum = 1 :=
  ⟨by norm_num, (index_load_normalizes [(1, 2), (3, 3)] (by norm_num)).2⟩

/-- C2 counterexample: the claim reads the propagation factor as c = 1 for a
vertex with no outgoing edges; at iteration 0 of 2, threshold 0, out-degree
0 and incoming flow {0: 1}, the code keeps 0.85 = (1 - 0.15) * 1 as the new
transient entry, not 1 * 1. -/
theorem decomposition_dangling_counterexample :
    (DecompositionProgram.apply 0 2 0 0 ⟨[], [], []⟩ [(0, 1)]).2
      = [(0, 17 / 20)] ∧ ((17 : W) / 20) ≠ 1 * 1 := by
  constructor
  · norm_num [DecompositionProgram.apply, RESET_PROB, insertAdd, insertSet]
  · norm_num

/-- C2 (amended): in a non-final round, apply adds RESET_PROB * w to
residual[k] for each incoming transient entry (k, w) and keeps c * w as the
new transient entry exactly when c * w strictly exceeds the threshold, where
c = (1 - RESET_PROB) / out_degree for positive out-degree and
c = 1 - RESET_PROB for out-degree 0; keys absent from the incoming flow stay
absent from the new flow and keep their residual value. -/
theorem decomposition_apply_nonfinal (iteration niters : ℕ) (threshold : W)
    (outdeg : ℕ) (data : VertexData) (flow : Vec)
    (hiter : iteration ≠ niters - 1) (hnd : (flow.map Prod.fst).Nodup) :
    ∀ c : W,
    c = (if 0 < outdeg then (1 - RESET_PROB) / (outdeg : W)
         else 1 - RESET_PROB) →
    (DecompositionProgram.apply iteration niters threshold outdeg data
        flow).1.ppr = data.ppr ∧
    (∀ k w, (k, w) ∈ flow →
      lookup0 (DecompositionProgram.apply iteration niters threshold outdeg
          data flow).1.residual k
        = lookup0 data.residual k + RESET_PROB * w ∧
      lookupW (DecompositionProgram.apply iteration niters threshold outdeg
          data flow).2 k
        = if c * w > threshold then some (c * w) else none) ∧
    (∀ k, k ∉ flow.map Prod.fst →
      lookup0 (DecompositionProgram.apply iteration niters threshold outdeg
          data flow).1.residual k = lookup0 data.residual k ∧
      lookupW (DecompositionProgram.apply iteration niters threshold outdeg
          data flow).2 k = none) := by
  intro c hc
  have hcc : c = (1 - RESET_PROB) *
      (if outdeg > 0 then 1 / (outdeg : W) else 1) := by
    by_cases h : 0 < outdeg
    · rw [hc, if_pos h, if_pos h, div_eq_mul_inv, one_div]
    · rw [hc, if_neg h, if_neg h, mul_one]
  by_cases hflow : flow = []
  · subst hflow
    have happly : DecompositionProgram.apply iteration niters threshold outdeg
        data [] = (data, []) := by
      unfold DecompositionProgram.apply
      rw [if_neg hiter]
      simp
    rw [happly]
    exact ⟨rfl, fun k w hm => absurd hm (List.not_mem_nil _),
      fun k _ => ⟨rfl, rfl⟩⟩
  · have happly : DecompositionProgram.apply iteration niters threshold outdeg
        data flow
        = ({ data with residual := (flow.foldl
              (fun r e => insertAdd r e.1 (RESET_PROB * e.2)) data.residual) },
           flow.foldl (fun m e => if c * e.2 > threshold
              then insertSet m e.1 (c * e.2) else m) []) := by
      unfold DecompositionProgram.apply
      rw [if_neg hiter, if_neg hflow, ← hcc]
      exact congrArg (fun p : Vec × Vec =>
        (({ ppr := data.ppr, flow := data.flow,
            residual := p.1 } : VertexData), p.2))
        (foldl_pair_split
          (fun (r : Vec) (e : VId × W) => insertAdd r e.1 (RESET_PROB * e.2))
          (fun (m : Vec) (e : VId × W) =>
            if c * e.2 > threshold then insertSet m e.1 (c * e.2) else m)
          flow data.residual [])
    rw [happly]
    refine ⟨rfl, fun k w hm => ⟨?_, ?_⟩, fun k hk => ⟨?_, ?_⟩⟩
    · rw [lookup0_foldl_insertAdd (fun e => RESET_PROB * e.2) flow
        data.residual k, filter_key_single flow k w hnd hm]
      simp
    · exact nf_foldl_mem c threshold flow [] k w hnd hm rfl
    · rw [lookup0_foldl_insertAdd (fun e => RESET_PROB * e.2) flow
        data.residual k, filter_key_nil flow k hk]
      simp
    · exact nf_foldl_preserve c threshold flow [] k hk

/-- Witness for C2 (amended) at iteration 0 of 3, threshold 3/10, out-degree
2, flow {5: 1, 6: 1/2}: residual gains RESET_PROB * w, entry 5 keeps
c * 1 = 0.425 > 0.3, entry 6 is dropped since c * 0.5 = 0.2125 ≤ 0.3. -/
theorem decomposition_apply_nonfinal_witness :
    lookup0 (DecompositionProgram.apply 0 3 (3 / 10) 2
        ⟨[], [], [(5, (1 : W) / 4)]⟩ [(5, 1), (6, 1 / 2)]).1.residual 5
      = lookup0 [(5, (1 : W) / 4)] 5 + RESET_PROB * 1 ∧
    lookupW (DecompositionProgram.apply 0 3 (3 / 10) 2
        ⟨[], [], [(5, (1 : W) / 4)]⟩ [(5, 1), (6, 1 / 2)]).2 5
      = some ((1 - RESET_PROB) / 2 * 1) ∧
    lookupW (DecompositionProgram.apply 0 3 (3 / 10) 2
        ⟨[], [], [(5, (1 : W) / 4)]⟩ [(5, 1), (6, 1 / 2)]).2 6 = none := by
  have h := decomposition_apply_nonfinal 0 3 (3 / 10) 2
    ⟨[], [], [(5, 1 / 4)]⟩ [(5, 1), (6, 1 / 2)] (by decide) (by simp)
    ((1 - RESET_PROB) / 2) (by norm_num)
  refine ⟨(h.2.1 5 1 (by simp)).1, ?_, ?_⟩
  · have h2 := (h.2.1 5 1 (by simp)).2
    rw [h2, if_pos (by norm_num [RESET_PROB] :
      (1 - RESET_PROB) / 2 * 1 > 3 / 10)]
  · have h3 := (h.2.1 6 (1 / 2) (by simp)).2
    rw [h3, if_neg (by norm_num [RESET_PROB] :
      ¬ ((1 - RESET_PROB) / 2 * (1 / 2) > 3 / 10))]

/-- C3: collect_results (indexed mode, no_idx = false) signals, for every
flow entry (n, w) with weight at least the threshold, the vertex's ppr
vector scaled entrywise by w with a matching residual entry for n (when
present) added into the copy under the sender's id — that residual entry
being zeroed; every remaining residual entry at or above the threshold
(value 0 where a significant flow key consumed it, the original value
otherwise) is sent as the single-entry message {vid: value} to its key
vertex; and the vertex's residual is empty when the pass finishes, with ppr
and flow untouched. -/
theorem collect_results_spec (threshold : W) (vid : VId) (data : VertexData)
    (hndf : (data.flow.map Prod.fst).Nodup)
    (hndr : (data.residual.map Prod.fst).Nodup) :
    (∀ n w, (n, w) ∈ data.flow → ¬ w < threshold →
      (n, (match lookupW data.residual n with
           | some r => insertAdd (data.ppr.map (fun p => (p.1, p.2 * w))) vid r
           | none => data.ppr.map (fun p => (p.1, p.2 * w))))
        ∈ (collect_results false threshold vid data).1) ∧
    (∀ k v, (k, v) ∈ data.residual →
      ∀ v2 : W,
      v2 = (if k ∈ (significant threshold data.flow).map Prod.fst then 0
            else v) →
      ¬ v2 < threshold →
      (k, [(vid, v2)]) ∈ (collect_results false threshold vid data).1) ∧
    (collect_results false threshold vid data).2.residual = [] ∧
    (collect_results false threshold vid data).2.ppr = data.ppr ∧
    (collect_results false threshold vid data).2.flow = data.flow := by
  have h1 : (collect_results false threshold vid data).1
      = (data.flow.foldl (collect_step threshold vid data.ppr)
          ([], data.residual)).1
        ++ ((data.flow.foldl (collect_step threshold vid data.ppr)
            ([], data.residual)).2.filterMap
          (fun e => if e.2 < threshold then none
                    else some (e.1, [(vid, e.2)]))) := rfl
  refine ⟨fun n w hm hw => ?_, fun k v hm v2 hv2 hthr => ?_, rfl, rfl, rfl⟩
  · rw [h1]
    exact List.mem_append_left _
      (collect_fold_flow_signal threshold vid data.ppr data.residual
        data.flow [] data.residual hndf (fun e _ => rfl) n w hm hw)
  · have hlk : lookupW data.residual k = some v :=
      lookupW_eq_some_of_nodup _ _ _ hndr hm
    have hlk2 : lookupW (data.flow.foldl
        (collect_step threshold vid data.ppr) ([], data.residual)).2 k
        = some v2 := by
      rw [collect_fold_residual threshold vid data.ppr data.flow []
        data.residual k, hlk]
      by_cases hk : k ∈ (significant threshold data.flow).map Prod.fst
      · rw [if_pos hk, hv2, if_pos hk]
      · rw [if_neg hk, hv2, if_neg hk]
    rw [h1]
    refine List.mem_append_right _ ?_
    refine List.mem_filterMap.mpr
      ⟨(k, v2), mem_of_lookupW_eq_some _ _ _ hlk2, ?_⟩
    simp [hthr]

/-- Witness for C3: vid 0, threshold 0, ppr {1: 1/2}, flow {2: 1}, residual
{2: 1/4, 3: 1/8}: the flow entry signals vertex 2 with the scaled ppr plus
the folded residual 1/4 under key 0; residual entry 3 is forwarded as
{0: 1/8}; residual ends empty. -/
theorem collect_results_spec_witness :
    ((2 : VId), [((1 : VId), (1 : W) / 2 * 1), (0, 1 / 4)])
      ∈ (collect_results false 0 0
          ⟨[(1, 1 / 2)], [(2, 1)], [(2, 1 / 4), (3, 1 / 8)]⟩).1 ∧
    ((3 : VId), [((0 : VId), (1 : W) / 8)])
      ∈ (collect_results false 0 0
          ⟨[(1, 1 / 2)], [(2, 1)], [(2, 1 / 4), (3, 1 / 8)]⟩).1 ∧
    (collect_results false 0 0
        ⟨[(1, 1 / 2)], [(2, 1)], [(2, 1 / 4), (3, 1 / 8)]⟩).2.residual = [] := by
  have h := collect_results_spec 0 0
    ⟨[(1, 1 / 2)], [(2, 1)], [(2, 1 / 4), (3, 1 / 8)]⟩ (by decide) (by decide)
  refine ⟨?_, ?_, h.2.2.1⟩
  · have h1 := h.1 2 1 (by simp) (by norm_num)
    simpa [lookupW, insertAdd] using h1
  · have h2 := h.2.1 3 (1 / 8) (by simp) (1 / 8) ?_ (by norm_num)
    · exact h2
    · have : (3 : VId) ∉ (significant 0 [((2 : VId), (1 : W))]).map Prod.fst := by
        norm_num [significant]
      rw [if_neg this]

/-- C7: the result writer emits nothing for an empty ppr and otherwise one
line with the vertex id, k = min(top_k, ppr size), and the first k ids of
the ppr entries sorted by non-increasing weight (strictly decreasing when
the weights are pairwise distinct, the sorted list being a permutation of
ppr); in particular ppr = {2: 0.9, 5: 0.4, 7: 0.1} with top_k = 2 at vertex
9 emits the line with ids 2 then 5. -/
theorem topk_writer_format (topk : ℕ) (vid : VId) (data : VertexData) :
    (data.ppr = [] → pagerank_writer.save_vertex topk vid data = "") ∧
    (sortByWeight data.ppr).Perm data.ppr ∧
    List.Sorted wgt_compare (sortByWeight data.ppr) ∧
    ((data.ppr.map Prod.snd).Nodup →
      (sortByWeight data.ppr).Pairwise (fun a b => b.2 < a.2)) ∧
    (data.ppr ≠ [] → pagerank_writer.save_vertex topk vid data =
      ((sortByWeight data.ppr).take (min topk data.ppr.length)).foldl
        (fun s e => s ++ " " ++ toString e.1)
        (toString vid ++ " " ++ toString (min topk data.ppr.length))
        ++ "\n") ∧
    pagerank_writer.save_vertex 2 9
        ⟨[(2, 9 / 10), (5, 2 / 5), (7, 1 / 10)], [], []⟩ = "9 2 2 5\n" := by
  have hperm : (sortByWeight data.ppr).Perm data.ppr :=
    List.perm_insertionSort wgt_compare data.ppr
  have hlen : (sortByWeight data.ppr).length = data.ppr.length :=
    hperm.length_eq
  refine ⟨fun h => ?_, hperm, List.sorted_insertionSort wgt_compare data.ppr,
    fun hnodup => ?_, fun h => ?_, ?_⟩
  · simp [pagerank_writer.save_vertex, h]
  · have hsorted : (sortByWeight data.ppr).Pairwise wgt_compare :=
      List.sorted_insertionSort wgt_compare data.ppr
    have hnodup2 : ((sortByWeight data.ppr).map Prod.snd).Nodup :=
      ((hperm.map Prod.snd).nodup_iff).mpr hnodup
    have hne : (sortByWeight data.ppr).Pairwise (fun a b => a.2 ≠ b.2) :=
      (List.pairwise_map.mp hnodup2)
    exact (hsorted.and hne).imp
      (fun hab => lt_of_le_of_ne hab.1 (fun hh => hab.2 hh.symm))
  · unfold pagerank_writer.save_vertex
    rw [if_neg h, ← hlen]
  · norm_num [pagerank_writer.save_vertex, sortByWeight, List.insertionSort,
      List.orderedInsert, wgt_compare]
    rfl

/-- Witness for C7: the scenario line itself, obtained from the theorem with
its non-emptiness and distinct-weights hypotheses discharged, plus the
strictly-decreasing shape of the sorted entries. -/
theorem topk_writer_format_witness :
    pagerank_writer.save_vertex 2 9
        ⟨[(2, 9 / 10), (5, 2 / 5), (7, 1 / 10)], [], []⟩ = "9 2 2 5\n" ∧
    (sortByWeight [((2 : VId), (9 : W) / 10), (5, 2 / 5), (7, 1 / 10)]).Pairwise
      (fun a b => b.2 < a.2) := by
  have h := topk_writer_format 2 9 ⟨[(2, 9 / 10), (5, 2 / 5), (7, 1 / 10)], [], []⟩
  refine ⟨h.2.2.2.2.2, h.2.2.2.1 ?_⟩
  norm_num

end PowerWalk
